import Mathlib

/-!
Verification of the OpenQA self-training core (`main.py`).

This file shallowly embeds the parts of the program that the specification
talks about:

* the answer span matcher `has_answer` (both the generic windowed mode and
  the CuratedTrec regex mode),
* the `HasAnswer_Map` batch cache shared by the training and evidence
  passes,
* the confidence accumulator of `update_evidence` (the `Probability` /
  `Attention_Weight` dictionaries with their duplicate-key guard),
* the global top-k promotion loop over `Evidence_Label`,
* the multi-document answer aggregator of `validate_unofficial_with_doc`.

External collaborators (the neural model, the CoreNLP tokenizer, the regex
engine) are taken as parameters, exactly as the specification scopes them
out.  Scores and probabilities are modelled as rationals; Python dicts that
are only ever extended are modelled as insertion-ordered association lists,
and `Evidence_Label` as a total function defaulting to `-1`.
-/

namespace OpenQA

/-! ## Answer span matcher (`has_answer`, main.py lines 526-558) -/

/-- Python `str.lower()`: lower-case every character of the string. -/
def lowerString (s : String) : String :=
  ⟨s.data.map Char.toLower⟩

/-- Source `text = [t[i].lower() for i in range(len(t))]` — the lower-cased document
tokens. -/
def lowerTokens (t : List String) : List String :=
  t.map lowerString

/-- The inner window loop of `has_answer`:
`for i in range(0, len(text) - len(single_answer) + 1): if single_answer == text[i:i+len]: res_list.append((i, i+len-1))`.
The Python range is empty when the answer is longer than the document, which
the truncated natural subtraction `text.length + 1 - sa.length` reproduces.
Span ends are `i + len - 1`, an integer that can be `-1` for an empty answer,
so spans are pairs of integers. -/
def matchPositions (sa : List String) (text : List String) : List (Int × Int) :=
  (List.range (text.length + 1 - sa.length)).foldl
    (fun acc i =>
      if sa = (text.drop i).take sa.length then
        acc ++ [((i : Int), (i : Int) + (sa.length : Int) - 1)]
      else acc) []

/-- Modelled from the spec: the external answer-normalisation pipeline
(`normalize`, `PROCESS_TOK.tokenize`, `.words(uncased=True)`) applied to an
already tokenized answer.  The pipeline is an out-of-scope collaborator; on
single ordinary words it lower-cases the token, which is the instance used
for concrete examples. -/
def answerTokens (a : List String) : List String :=
  a.map lowerString

/-- Source `has_answer` in the generic (non-CuratedTrec) mode, parameterised by the
external answer pipeline: for every accepted answer, run the window scan
over the lower-cased document tokens, appending all matches; finally return
`(res_list.length > 0, res_list)`. -/
def has_answer (pipeline : List String → List String)
    (answer : List (List String)) (t : List String) : Bool × List (Int × Int) :=
  let text := lowerTokens t
  let res_list := answer.foldl (fun acc a => acc ++ matchPositions (pipeline a) text) []
  if 0 < res_list.length then (true, res_list) else (false, res_list)

/-- Source `has_answer` in the CuratedTrec regex mode, parameterised by the external
regex compiler (`None` models a `re.compile` failure, caught by the bare
`except`) and by the fragment pipeline.  A missing first answer also lands in
the `except` branch of the source. -/
def has_answer_trec (compile : String → Option (String → List String))
    (fragTokens : String → List String)
    (answer : List String) (t : List String) : Bool × List (Int × Int) :=
  let text := lowerTokens t
  match answer with
  | [] => (false, [])
  | a0 :: _ =>
    match compile ("(" ++ a0 ++ ")") with
    | none => (false, [])
    | some findall =>
      let frags := findall (String.intercalate " " text)
      let res_list := frags.foldl (fun acc a => acc ++ matchPositions (fragTokens a) text) []
      if 0 < res_list.length then (true, res_list) else (false, res_list)

/-! ## Multi-document answer aggregator
(`validate_unofficial_with_doc`, main.py lines 609-644) -/

/-- One candidate span `(pred_s[i][k], pred_e[i][k])` of one document, with
its span score `pred_score[i][k]` and its document's selection score
`scores_doc_num[i][idx_doc]`. -/
structure Candidate where
  predS : Nat
  predE : Nat
  spanScore : ℚ
  docScore : ℚ
  doc : List String
deriving DecidableEq

/-- Source `for j in range(pred_s, pred_e+1): prediction.append(doc_text[j])` raises
`IndexError` exactly when the range is non-empty and reaches past the end of
the document; the surrounding bare `except: pass` turns this into skipping
the candidate. -/
def outOfRange (c : Candidate) : Bool :=
  decide (c.predS ≤ c.predE) && decide (c.doc.length ≤ c.predE)

/-- Source `" ".join(prediction).lower()` over `doc_text[pred_s .. pred_e]`. -/
def predString (c : Candidate) : String :=
  lowerString (String.intercalate " " ((c.doc.drop c.predS).take (c.predE + 1 - c.predS)))

/-- Source `pred_score[i][k] * scores_doc_num[i][idx_doc]`. -/
def vote (c : Candidate) : ℚ := c.spanScore * c.docScore

/-- Source `if prediction not in scores[i]: scores[i][prediction] = 0` followed by
`scores[i][prediction] += v`, on an insertion-ordered association-list model
of the Python dict. -/
def addVote (m : List (String × ℚ)) (key : String) (v : ℚ) : List (String × ℚ) :=
  if m.any (fun kv => decide (kv.1 = key)) then
    m.map (fun kv => if kv.1 = key then (kv.1, kv.2 + v) else kv)
  else m ++ [(key, v)]

/-- The candidate loops of the aggregator, folded over the candidates in
visitation order (document-major, then top-10 rank). -/
def aggregateFrom (m : List (String × ℚ)) (cs : List Candidate) : List (String × ℚ) :=
  cs.foldl (fun acc c => if outOfRange c then acc else addVote acc (predString c) (vote c)) m

/-- The per-example `scores[i]` dict after all candidate loops. -/
def aggregate (cs : List Candidate) : List (String × ℚ) := aggregateFrom [] cs

/-- Source `best_score = 0; prediction = ""`, then
`for key in scores[i]: if scores[i][key] > best_score: update`. -/
def selectBest (m : List (String × ℚ)) : String × ℚ :=
  m.foldl (fun best kv => if best.2 < kv.2 then kv else best) ("", 0)

/-- The answer string the aggregator reports for one example. -/
def aggregatePredict (cs : List Candidate) : String := (selectBest (aggregate cs)).1

/-- Total accumulated vote of a surface string over the in-range candidates. -/
def votesFor (cs : List Candidate) (key : String) : ℚ :=
  ((cs.filter (fun c => !outOfRange c && decide (predString c = key))).map vote).sum

/-- Surface strings of the in-range candidates, in visitation order. -/
def validSurfaces (cs : List Candidate) : List String :=
  (cs.filter (fun c => !outOfRange c)).map predString

/-- First-seen deduplication, tracking the set of already seen keys. -/
def firstSeenAux (seen : List String) : List String → List String
  | [] => []
  | x :: xs => if x ∈ seen then firstSeenAux seen xs else x :: firstSeenAux (x :: seen) xs

/-- The maximum accumulated vote, floored at the initial `best_score = 0`. -/
def maxVote (m : List (String × ℚ)) : ℚ := m.foldl (fun acc kv => max acc kv.2) 0

/-- Vote stored under a key of the association-list dict. -/
def lookupVote (m : List (String × ℚ)) (key : String) : Option ℚ :=
  (m.find? (fun kv => decide (kv.1 = key))).map (fun kv => kv.2)

/-- Example candidates of the specification: two documents produce the
surface `"paris"` with votes `0.8` and `0.3` and a third produces `"lyon"`
with vote `0.5`. -/
def parisDoc : List String := ["paris"]

def lyonDoc : List String := ["lyon"]

def exCands : List Candidate :=
  [⟨0, 0, 4/5, 1, parisDoc⟩, ⟨0, 0, 3/10, 1, parisDoc⟩, ⟨0, 0, 1/2, 1, lyonDoc⟩]

/-- A ten-token document, shorter than the predicted span `(50, 52)`. -/
def shortDoc : List String := List.replicate 10 "tok"

/-- A single candidate whose vote is exactly `0`. -/
def zeroCands : List Candidate := [⟨0, 0, 0, 1, parisDoc⟩]

/-! ## HasAnswer cache
(`HasAnswer_Map`, main.py lines 226-235 in `train` and 327-336 in
`update_evidence`) -/

/-- One step of the grid computation of `HasAnswer_Map[idx]`: call the
matcher for cell `(idx_doc, i)` and log the invocation. -/
def cellCall {α : Type} (matcher : Nat → Nat → α) (log : List (Nat × Nat))
    (d i : Nat) : α × List (Nat × Nat) :=
  (matcher d i, log ++ [(d, i)])

/-- The two nested loops that build `HasAnswer_list` on a cache miss:
`for idx_doc in range(num_docs): for i in range(batch_size): has_answer(...)`.
Every matcher call is logged so that the number of invocations is part of
the semantics. -/
def computeGridLog {α : Type} (numDocs batchSize : Nat) (matcher : Nat → Nat → α) :
    List (List α) × List (Nat × Nat) :=
  (List.range numDocs).foldl
    (fun acc d =>
      let row := (List.range batchSize).foldl
        (fun acc2 i =>
          let ri := cellCall matcher acc2.2 d i
          (acc2.1 ++ [ri.1], ri.2)) ([], acc.2)
      (acc.1 ++ [row.1], row.2)) ([], [])

/-- Source `if idx not in HasAnswer_Map: compute and store else: reuse`, on an
insertion-ordered association-list model of the dict; the returned trace
lists the matcher invocations this visit performed. -/
def getOrCompute {α : Type} (cache : List (Nat × List (List α))) (idx : Nat)
    (numDocs batchSize : Nat) (matcher : Nat → Nat → α) :
    List (List α) × List (Nat × List (List α)) × List (Nat × Nat) :=
  match cache.find? (fun kv => decide (kv.1 = idx)) with
  | some kv => (kv.2, cache, [])
  | none =>
    let gl := computeGridLog numDocs batchSize matcher
    (gl.1, cache ++ [(idx, gl.1)], gl.2)

/-- All cells of a `numDocs × batchSize` grid, row-major. -/
def cellEnum (numDocs batchSize : Nat) : List (Nat × Nat) :=
  (List.range numDocs).flatMap (fun d => (List.range batchSize).map (fun i => (d, i)))

/-! ## Confidence accumulator of `update_evidence`
(`Probability` / `Attention_Weight`, main.py lines 391-397) -/

/-- The `Probability` and `Attention_Weight` dicts, as insertion-ordered
association lists keyed by the `(batch idx, in-batch i)` pair that the
source formats as `"%d|%d"`. -/
abbrev AccState := List ((Nat × Nat) × ℚ) × List ((Nat × Nat) × (ℚ × Int))

/-- One accumulator write:
`if key in Probability or key in Attention_Weight: raise ValueError(...)`
followed by the two stores. -/
def accumInsert (st : AccState) (key : Nat × Nat) (p : ℚ) (att : ℚ × Int) :
    Except String AccState :=
  if st.1.any (fun kv => decide (kv.1 = key)) || st.2.any (fun kv => decide (kv.1 = key)) then
    Except.error (toString key.1 ++ "|" ++ toString key.2
      ++ " exists in Probability or Attention_Weight")
  else
    Except.ok (st.1 ++ [(key, p)], st.2 ++ [(key, att)])

/-- The `for i in range(batch_size)` write loop of one batch, starting at
in-batch position `i`; a raised `ValueError` aborts the pass. -/
def accumBatch (idx : Nat) : Nat → List (ℚ × ℚ × Int) → AccState → Except String AccState
  | _, [], st => Except.ok st
  | i, out :: rest, st =>
    match accumInsert st (idx, i) out.1 (out.2.1, out.2.2) with
    | Except.error e => Except.error e
    | Except.ok st2 => accumBatch idx (i + 1) rest st2

/-- The accumulate phase of the whole pass: one batch of model outputs per
loader step, batches keyed by their enumeration index. -/
def accumPass : Nat → List (List (ℚ × ℚ × Int)) → AccState → Except String AccState
  | _, [], st => Except.ok st
  | idx, b :: bs, st =>
    match accumBatch idx 0 b st with
    | Except.error e => Except.error e
    | Except.ok st2 => accumPass (idx + 1) bs st2

/-- The keys the accumulate phase writes, in write order. -/
def passKeys : Nat → List (List (ℚ × ℚ × Int)) → List (Nat × Nat)
  | _, [] => []
  | idx, b :: bs => (List.range b.length).map (fun i => (idx, i)) ++ passKeys (idx + 1) bs

/-! ## Evidence labels and the global top-k promoter
(`update_evidence`, main.py lines 399-420) -/

/-- One accumulated confidence record of the promote phase:
`Attention_Weight["idx|i"] = (max_value, max_index)` together with
`Probability["idx|i"]`. -/
structure ConfRecord where
  batch : Nat
  inBatch : Nat
  prob : ℚ
  score : ℚ
  docIdx : Int
deriving DecidableEq

/-- The key `"%d|%d" % (idx, i)` of a record. -/
def rkey (r : ConfRecord) : Nat × Nat := (r.batch, r.inBatch)

/-- Source `Evidence_Label` as a total map from `(batch, in-batch)` coordinates to a
document index, `-1` meaning unlabeled; `update_evidence` initialises every
visited batch's entries to `-1`. -/
abbrev Labels := (Nat × Nat) → Int

/-- Source `Evidence_Label[idx][i] = v`. -/
def setLabel (lab : Labels) (k : Nat × Nat) (v : Int) : Labels :=
  fun k2 => if k2 = k then v else lab k2

/-- The record filter
`{key: ... for key, attention in Attention_Weight.items() if attention[1] != -1}`,
preserving insertion (visitation) order as Python dicts do. -/
def eligibleRecords (recs : List ConfRecord) : List ConfRecord :=
  recs.filter (fun r => decide (r.docIdx ≠ -1))

/-- Stable insertion for the descending sort: walk past strictly greater
scores, insert before the first record whose score is less than or equal
(so a record stays before later records with an equal score). -/
def insertDesc (r : ConfRecord) : List ConfRecord → List ConfRecord
  | [] => [r]
  | x :: xs => if r.score < x.score then x :: insertDesc r xs else r :: x :: xs

/-- Source `sorted(evidence_scores.items(), key=lambda x: x[1][0], reverse=True)`:
Python's sort is stable, and a stable sort is uniquely determined by the
comparison and the input order, here realised as stable insertion sort. -/
def sortRecords (recs : List ConfRecord) : List ConfRecord :=
  recs.foldr insertDesc []

/-- The promotion walk over the sorted records: skip labeled examples
(`continue`), otherwise promote (`Evidence_Label[idx][i] = value[1]`),
increment the counter, and `break` once `count >= Top_k` — checked after the
increment, as in the source. Returns the final labels, the promotion count,
and the promoted keys in order. -/
def promoteLoop (K : Nat) : List ConfRecord → Labels → Nat → Labels × Nat × List (Nat × Nat)
  | [], lab, count => (lab, count, [])
  | r :: rs, lab, count =>
    if lab (rkey r) ≠ -1 then promoteLoop K rs lab count
    else
      let lab2 := setLabel lab (rkey r) r.docIdx
      if K ≤ count + 1 then (lab2, count + 1, [rkey r])
      else
        let rest := promoteLoop K rs lab2 (count + 1)
        (rest.1, rest.2.1, rkey r :: rest.2.2)

/-- Phase 2 of `update_evidence`: filter to records with a usable attention
index, stable-sort by attention score descending, then walk with the budget
`Top_k = args.top_k`. -/
def updatePromote (K : Nat) (recs : List ConfRecord) (lab : Labels) :
    Labels × Nat × List (Nat × Nat) :=
  promoteLoop K (sortRecords (eligibleRecords recs)) lab 0

/-- Count of eligible records whose example is still unlabeled. -/
def eligibleUnlabeledCount (recs : List ConfRecord) (lab : Labels) : Nat :=
  ((eligibleRecords recs).filter (fun r => decide (lab (rkey r) = -1))).length

/-- A single eligible, never-labeled record with key `(0, 0)`. -/
def soloRecord : ConfRecord := ⟨0, 0, 1, 1, 0⟩

/-- The all-unlabeled evidence store. -/
def allUnlabeled : Labels := fun _ => -1

/-- The three spec-example records: attention scores `0.9`, `0.5`, `0.7` for
three distinct unlabeled questions, all with a usable best document. -/
def exRecsPre : List ConfRecord :=
  [⟨0, 0, 1, 9/10, 2⟩, ⟨0, 1, 1, 1/2, 2⟩, ⟨0, 2, 1, 7/10, 2⟩]

inductive PromoteError
  | AlreadyLabeled
deriving DecidableEq

/-- Modelled from the spec: the Evidence Label Store's `promote` operation of
spec section 4.4, failing with `AlreadyLabeled` on a labeled question.  The
repository keeps `Evidence_Label` as a plain dict and the promoter skips
labeled entries inline (`if Evidence_Label[idx][i] != -1: continue`), so the
store-level operation is modelled from the spec's words. -/
def promoteStore (store : Labels) (q : Nat × Nat) (d : Int) :
    Except PromoteError Labels :=
  if store q ≠ -1 then Except.error PromoteError.AlreadyLabeled
  else Except.ok (setLabel store q d)

/-- A store in which question `(0, 0)` is already labeled with document 5. -/
def oneLabeled : Labels := fun k => if k = (0, 0) then 5 else -1

/-- Rewriting the append-only fold of the window loop as a `filterMap`. -/
theorem foldl_if_append_eq_filterMap {α β : Type} (p : α → Prop) [DecidablePred p] (g : α → β) :
    ∀ (l : List α) (acc : List β),
      l.foldl (fun a i => if p i then a ++ [g i] else a) acc
        = acc ++ l.filterMap (fun i => if p i then some (g i) else none) := by
  intro l
  induction l with
  | nil => intro acc; simp
  | cons x xs ih =>
    intro acc
    by_cases hx : p x
    · simp [List.foldl_cons, hx, ih]
    · simp [List.foldl_cons, hx, ih]

/-- Rewriting the append-only fold over answers as a `flatMap`. -/
theorem foldl_append_eq_flatMap {α β : Type} (f : α → List β) :
    ∀ (l : List α) (acc : List β),
      l.foldl (fun a x => a ++ f x) acc = acc ++ l.flatMap f := by
  intro l
  induction l with
  | nil => intro acc; simp
  | cons x xs ih =>
    intro acc
    simp [List.foldl_cons, ih]

theorem matchPositions_eq_filterMap (sa text : List String) :
    matchPositions sa text
      = (List.range (text.length + 1 - sa.length)).filterMap
          (fun i => if sa = (text.drop i).take sa.length then
              some ((i : Int), (i : Int) + (sa.length : Int) - 1) else none) := by
  unfold matchPositions
  simpa using foldl_if_append_eq_filterMap
    (fun i => sa = (text.drop i).take sa.length)
    (fun i => ((i : Int), (i : Int) + (sa.length : Int) - 1))
    (List.range (text.length + 1 - sa.length)) []

/-- Membership in the window-scan output: exactly the in-range windows of the
text that equal the answer token sequence. -/
theorem mem_matchPositions (sa text : List String) (x : Int × Int) :
    x ∈ matchPositions sa text ↔
      ∃ i : Nat, i + sa.length ≤ text.length ∧
        sa = (text.drop i).take sa.length ∧
        x = ((i : Int), (i : Int) + (sa.length : Int) - 1) := by
  rw [matchPositions_eq_filterMap]
  simp only [List.mem_filterMap, List.mem_range]
  constructor
  · rintro ⟨i, hi, hx⟩
    by_cases h : sa = (text.drop i).take sa.length
    · rw [if_pos h] at hx
      exact ⟨i, by omega, h, (Option.some.inj hx).symm⟩
    · rw [if_neg h] at hx
      exact absurd hx (by simp)
  · rintro ⟨i, hi, h, hx⟩
    exact ⟨i, by omega, by rw [if_pos h, hx]⟩

/-- C5: the span matcher returns `has_answer = true` iff the span list is
non-empty; the spans are exactly the windows of the lower-cased document
tokens that equal a normalized, tokenized accepted answer, reported as
inclusive token positions, collected per accepted answer in left-to-right
window order; on the document `["the","cat","sat"]` the answer `["cat"]`
yields `(true, [(1,1)])` and `["dog"]` yields `(false, [])`. -/
theorem c5_span_matcher :
    (∀ (pipeline : List String → List String) (answer : List (List String)) (t : List String),
      ((has_answer pipeline answer t).1 = true ↔ (has_answer pipeline answer t).2 ≠ []) ∧
      (has_answer pipeline answer t).2
        = answer.flatMap (fun a => matchPositions (pipeline a) (lowerTokens t)) ∧
      (∀ x : Int × Int, x ∈ (has_answer pipeline answer t).2 ↔
        ∃ a ∈ answer, ∃ i : Nat,
          i + (pipeline a).length ≤ t.length ∧
          pipeline a = ((lowerTokens t).drop i).take (pipeline a).length ∧
          x = ((i : Int), (i : Int) + ((pipeline a).length : Int) - 1)))
    ∧ has_answer answerTokens [["cat"]] ["the", "cat", "sat"] = (true, [(1, 1)])
    ∧ has_answer answerTokens [["dog"]] ["the", "cat", "sat"] = (false, []) := by
  refine ⟨?_, by decide, by decide⟩
  intro pipeline answer t
  have hfold : answer.foldl (fun acc a => acc ++ matchPositions (pipeline a) (lowerTokens t)) []
      = answer.flatMap (fun a => matchPositions (pipeline a) (lowerTokens t)) := by
    simpa using foldl_append_eq_flatMap
      (fun a => matchPositions (pipeline a) (lowerTokens t)) answer []
  have hsnd : (has_answer pipeline answer t).2
      = answer.flatMap (fun a => matchPositions (pipeline a) (lowerTokens t)) := by
    simp only [has_answer, hfold]
    split <;> rfl
  have hlen : (lowerTokens t).length = t.length := by
    unfold lowerTokens; exact List.length_map t lowerString
  refine ⟨?_, hsnd, ?_⟩
  · simp only [has_answer, hfold]
    by_cases h : answer.flatMap (fun a => matchPositions (pipeline a) (lowerTokens t)) = []
    · simp [h]
    · rw [if_pos (List.length_pos.mpr h)]
      simp [h]
  · intro x
    rw [hsnd]
    simp only [List.mem_flatMap]
    constructor
    · rintro ⟨a, ha, hx⟩
      rcases (mem_matchPositions (pipeline a) (lowerTokens t) x).1 hx with ⟨i, hi, heq, hval⟩
      exact ⟨a, ha, i, by omega, heq, hval⟩
    · rintro ⟨a, ha, i, hi, heq, hval⟩
      exact ⟨a, ha, (mem_matchPositions (pipeline a) (lowerTokens t) x).2
        ⟨i, by omega, heq, hval⟩⟩

/-- C6: in the CuratedTrec regex mode, a pattern that fails to compile is
recovered locally — `has_answer` returns `(false, [])` to the caller instead
of propagating the exception. -/
theorem c6_regex_failure
    (compile : String → Option (String → List String))
    (fragTokens : String → List String)
    (a0 : String) (rest : List String) (t : List String)
    (h : compile ("(" ++ a0 ++ ")") = none) :
    has_answer_trec compile fragTokens (a0 :: rest) t = (false, []) := by
  unfold has_answer_trec
  simp [h]

/-- Witness for C6: a compiler that always fails makes `has_answer_trec`
return `(false, [])` on a concrete question. -/
theorem c6_regex_failure_witness :
    has_answer_trec (fun _ => none) (fun s => [s]) ["cat("] ["the", "cat", "sat"]
      = (false, []) :=
  c6_regex_failure (fun _ => none) (fun s => [s]) "cat(" [] ["the", "cat", "sat"] rfl

theorem find?_congr {α : Type} (p q : α → Bool) :
    ∀ l : List α, (∀ x ∈ l, p x = q x) → l.find? p = l.find? q := by
  intro l
  induction l with
  | nil => intro _; rfl
  | cons x xs ih =>
    intro h
    rw [List.find?_cons, List.find?_cons, h x (by simp)]
    rcases hq : q x with _ | _
    · exact ih (fun y hy => h y (by simp [hy]))
    · rfl

theorem lookupVote_append_single (m : List (String × ℚ)) (k : String) (v : ℚ)
    (key : String) :
    lookupVote (m ++ [(k, v)]) key
      = ((lookupVote m key).or (if key = k then some v else none)) := by
  unfold lookupVote
  rw [List.find?_append]
  rcases h : m.find? (fun kv => decide (kv.1 = key)) with _ | kv
  · by_cases hk : key = k
    · subst hk
      simp [List.find?_cons, h]
    · have : ¬ k = key := fun h2 => hk h2.symm
      simp [List.find?_cons, this, hk, h]
  · simp [h]

theorem lookupVote_map_update (k : String) (v : ℚ) (key : String) :
    ∀ m : List (String × ℚ),
      lookupVote (m.map (fun kv => if kv.1 = k then (kv.1, kv.2 + v) else kv)) key
        = (lookupVote m key).map (fun w => if key = k then w + v else w) := by
  intro m
  induction m with
  | nil => rfl
  | cons kv rest ih =>
    have hfst : (if kv.1 = k then (kv.1, kv.2 + v) else kv).1 = kv.1 := by
      by_cases h : kv.1 = k <;> simp [h]
    by_cases hky : kv.1 = key
    · subst hky
      by_cases hkk : kv.1 = k
      · simp [lookupVote, List.map_cons, List.find?_cons, hfst, hkk]
      · simp [lookupVote, List.map_cons, List.find?_cons, hfst, hkk]
    · have h1 : (decide ((if kv.1 = k then (kv.1, kv.2 + v) else kv).1 = key)) = false := by
        simp [hfst, hky]
      have h2 : (decide (kv.1 = key)) = false := by simp [hky]
      simp only [lookupVote, List.map_cons, List.find?_cons, h1, h2]
      simpa [lookupVote] using ih

theorem lookupVote_isSome_of_any (m : List (String × ℚ)) (k : String)
    (h : m.any (fun kv => decide (kv.1 = k)) = true) :
    ∃ w, lookupVote m k = some w := by
  rcases List.any_eq_true.1 h with ⟨kv, hmem, hk⟩
  have : (m.find? (fun kv => decide (kv.1 = k))).isSome := by
    rw [List.find?_isSome]
    exact ⟨kv, hmem, hk⟩
  rcases Option.isSome_iff_exists.1 this with ⟨kv2, hkv2⟩
  exact ⟨kv2.2, by simp [lookupVote, hkv2]⟩

theorem lookupVote_addVote (m : List (String × ℚ)) (k : String) (v : ℚ) (key : String) :
    lookupVote (addVote m k v) key
      = if key = k then
          (match lookupVote m k with
            | some w => some (w + v)
            | none => some v)
        else lookupVote m key := by
  unfold addVote
  rcases hany : m.any (fun kv => decide (kv.1 = k)) with _ | _
  · rw [if_neg (by simp [hany])]
    rw [lookupVote_append_single]
    by_cases hk : key = k
    · subst hk
      have hnone : lookupVote m key = none := by
        unfold lookupVote
        have hfind : m.find? (fun kv => decide (kv.1 = key)) = none := by
          rw [List.find?_eq_none]
          intro kv hmem
          have := List.any_eq_false.mp hany kv hmem
          simpa using this
        rw [hfind]
        rfl
      simp [hnone]
    · simp [hk]
  · rw [if_pos (by simp [hany])]
    rw [lookupVote_map_update]
    by_cases hk : key = k
    · rcases lookupVote_isSome_of_any m k hany with ⟨w, hw⟩
      simp [hk, hw]
    · rcases h2 : lookupVote m key with _ | w
      · simp [hk, h2]
      · simp [hk, h2]

theorem lookupVote_aggregateFrom (key : String) :
    ∀ (cs : List Candidate) (m : List (String × ℚ)),
      lookupVote (aggregateFrom m cs) key
        = match lookupVote m key with
          | some w => some (w + votesFor cs key)
          | none =>
            if key ∈ validSurfaces cs then some (votesFor cs key) else none := by
  intro cs
  induction cs with
  | nil =>
    intro m
    rcases h : lookupVote m key with _ | w
    · simp [aggregateFrom, votesFor, validSurfaces, h]
    · simp [aggregateFrom, votesFor, validSurfaces, h]
  | cons c cs ih =>
    intro m
    rcases ho : outOfRange c with _ | _
    · have hstep : aggregateFrom m (c :: cs)
          = aggregateFrom (addVote m (predString c) (vote c)) cs := by
        simp [aggregateFrom, ho]
      by_cases hpk : predString c = key
      · subst hpk
        have hvotes : votesFor (c :: cs) (predString c)
            = vote c + votesFor cs (predString c) := by
          simp [votesFor, List.filter_cons, ho]
        rw [hstep, ih, lookupVote_addVote]
        rw [if_pos rfl]
        rcases hm : lookupVote m (predString c) with _ | w
        · simp [hm, hvotes, validSurfaces, List.filter_cons, ho]
        · simp only [hm, hvotes]
          rw [add_assoc]
      · have hvotes : votesFor (c :: cs) key = votesFor cs key := by
          simp [votesFor, List.filter_cons, ho, hpk]
        have hmem : (key ∈ validSurfaces (c :: cs)) ↔ (key ∈ validSurfaces cs) := by
          have hvs : validSurfaces (c :: cs) = predString c :: validSurfaces cs := by
            simp [validSurfaces, List.filter_cons, ho]
          rw [hvs, List.mem_cons]
          constructor
          · rintro (h2 | h2)
            · exact absurd h2.symm hpk
            · exact h2
          · exact fun h2 => Or.inr h2
        rw [hstep, ih, lookupVote_addVote, if_neg (fun h : key = predString c => hpk h.symm)]
        rcases hm : lookupVote m key with _ | w
        · simp only [hvotes]
          by_cases hin : key ∈ validSurfaces cs
          · rw [if_pos hin, if_pos (hmem.mpr hin)]
          · rw [if_neg hin, if_neg (fun h2 => hin (hmem.mp h2))]
        · simp only [hvotes]
    · have hstep : aggregateFrom m (c :: cs) = aggregateFrom m cs := by
        simp [aggregateFrom, ho]
      have hvotes : votesFor (c :: cs) key = votesFor cs key := by
        simp [votesFor, List.filter_cons, ho]
      have hvs : validSurfaces (c :: cs) = validSurfaces cs := by
        simp [validSurfaces, List.filter_cons, ho]
      rw [hstep, ih, hvotes, hvs]

theorem keys_addVote (m : List (String × ℚ)) (k : String) (v : ℚ) :
    (addVote m k v).map (fun kv => kv.1)
      = if m.any (fun kv => decide (kv.1 = k)) then m.map (fun kv => kv.1)
        else m.map (fun kv => kv.1) ++ [k] := by
  unfold addVote
  rcases h : m.any (fun kv => decide (kv.1 = k)) with _ | _
  · simp [h]
  · rw [if_pos (by simp [h]), if_pos (by simp [h])]
    rw [List.map_map]
    refine List.map_congr_left ?_
    intro kv _
    by_cases hkv : kv.1 = k <;> simp [hkv]

theorem firstSeenAux_congr :
    ∀ (l s1 s2 : List String), (∀ x, x ∈ s1 ↔ x ∈ s2) →
      firstSeenAux s1 l = firstSeenAux s2 l := by
  intro l
  induction l with
  | nil => intro s1 s2 _; rfl
  | cons x xs ih =>
    intro s1 s2 h
    by_cases hx : x ∈ s1
    · rw [firstSeenAux, firstSeenAux, if_pos hx, if_pos ((h x).1 hx)]
      exact ih s1 s2 h
    · rw [firstSeenAux, firstSeenAux, if_neg hx, if_neg (fun h2 => hx ((h x).2 h2))]
      exact congrArg (fun l2 => x :: l2) (ih (x :: s1) (x :: s2) (fun y => by simp [h y]))

theorem keys_aggregateFrom :
    ∀ (cs : List Candidate) (m : List (String × ℚ)),
      (aggregateFrom m cs).map (fun kv => kv.1)
        = m.map (fun kv => kv.1)
          ++ firstSeenAux (m.map (fun kv => kv.1)) (validSurfaces cs) := by
  intro cs
  induction cs with
  | nil => intro m; simp [aggregateFrom, validSurfaces, firstSeenAux]
  | cons c cs ih =>
    intro m
    rcases ho : outOfRange c with _ | _
    · have hstep : aggregateFrom m (c :: cs)
          = aggregateFrom (addVote m (predString c) (vote c)) cs := by
        simp [aggregateFrom, ho]
      have hvs : validSurfaces (c :: cs) = predString c :: validSurfaces cs := by
        simp [validSurfaces, List.filter_cons, ho]
      rcases hany : m.any (fun kv => decide (kv.1 = predString c)) with _ | _
      · have hmem : predString c ∉ m.map (fun kv => kv.1) := by
          intro hmem
          rcases List.mem_map.1 hmem with ⟨kv, hkv, hfst⟩
          have := List.any_eq_false.mp hany kv hkv
          simp [hfst] at this
        rw [hstep, ih, keys_addVote, if_neg (by simp [hany]), hvs]
        rw [firstSeenAux, if_neg hmem, List.append_assoc, List.singleton_append]
        congr 1
        congr 1
        exact firstSeenAux_congr _ _ _ (fun y => by
          constructor
          · intro hy
            rcases List.mem_append.1 hy with hy2 | hy2
            · exact List.mem_cons_of_mem _ hy2
            · simp at hy2
              simp [hy2]
          · intro hy
            rcases List.mem_cons.1 hy with hy2 | hy2
            · simp [hy2]
            · exact List.mem_append_left _ hy2)
      · have hmem : predString c ∈ m.map (fun kv => kv.1) := by
          rcases List.any_eq_true.1 hany with ⟨kv, hkv, hdec⟩
          exact List.mem_map.2 ⟨kv, hkv, by simpa using hdec⟩
        rw [hstep, ih, keys_addVote, if_pos hany, hvs]
        rw [firstSeenAux, if_pos hmem]
    · have hstep : aggregateFrom m (c :: cs) = aggregateFrom m cs := by
        simp [aggregateFrom, ho]
      have hvs : validSurfaces (c :: cs) = validSurfaces cs := by
        simp [validSurfaces, List.filter_cons, ho]
      rw [hstep, ih, hvs]

theorem selectBest_val :
    ∀ (m : List (String × ℚ)) (b : String × ℚ),
      (m.foldl (fun best kv => if best.2 < kv.2 then kv else best) b).2
        = m.foldl (fun acc kv => max acc kv.2) b.2 := by
  intro m
  induction m with
  | nil => intro b; rfl
  | cons kv rest ih =>
    intro b
    by_cases h : b.2 < kv.2
    · rw [List.foldl_cons, List.foldl_cons, if_pos h, ih]
      congr 1
      exact (max_eq_right (le_of_lt h)).symm
    · rw [List.foldl_cons, List.foldl_cons, if_neg h, ih]
      congr 1
      exact (max_eq_left (le_of_not_lt h)).symm

theorem init_le_foldl_max :
    ∀ (m : List (String × ℚ)) (a : ℚ),
      a ≤ m.foldl (fun acc kv => max acc kv.2) a := by
  intro m
  induction m with
  | nil => intro a; exact le_refl a
  | cons kv rest ih =>
    intro a
    rw [List.foldl_cons]
    exact le_trans (le_max_left a kv.2) (ih (max a kv.2))

theorem selectBest_first :
    ∀ (m : List (String × ℚ)) (b : String × ℚ),
      m.foldl (fun best kv => if best.2 < kv.2 then kv else best) b = b ∨
        (b.2 < (m.foldl (fun best kv => if best.2 < kv.2 then kv else best) b).2 ∧
          m.find? (fun kv => decide (b.2 < kv.2 ∧
              kv.2 = (m.foldl (fun best kv => if best.2 < kv.2 then kv else best) b).2))
            = some (m.foldl (fun best kv => if best.2 < kv.2 then kv else best) b)) := by
  intro m
  induction m with
  | nil => intro b; exact Or.inl rfl
  | cons kv rest ih =>
    intro b
    by_cases h : b.2 < kv.2
    · rw [List.foldl_cons, if_pos h]
      right
      have hval : (rest.foldl (fun best kv => if best.2 < kv.2 then kv else best) kv).2
          = rest.foldl (fun acc kv => max acc kv.2) kv.2 := selectBest_val rest kv
      have hge : kv.2 ≤ (rest.foldl (fun best kv => if best.2 < kv.2 then kv else best) kv).2 := by
        rw [hval]; exact init_le_foldl_max rest kv.2
      refine ⟨lt_of_lt_of_le h hge, ?_⟩
      rcases ih kv with heq | ⟨hlt, hfind⟩
      · rw [heq]
        exact List.find?_cons_of_pos _ (by simp [h])
      · rw [List.find?_cons_of_neg _ (by
          simp only [decide_eq_true_eq]
          rintro ⟨_, habs⟩
          exact absurd habs (ne_of_lt hlt))]
        have hcongr := find?_congr
          (fun x : String × ℚ => decide (b.2 < x.2 ∧
            x.2 = (rest.foldl (fun best kv => if best.2 < kv.2 then kv else best) kv).2))
          (fun x : String × ℚ => decide (kv.2 < x.2 ∧
            x.2 = (rest.foldl (fun best kv => if best.2 < kv.2 then kv else best) kv).2))
          rest (fun x _ => decide_eq_decide.mpr
            ⟨fun hx => ⟨hx.2 ▸ hlt, hx.2⟩,
             fun hx => ⟨hx.2 ▸ lt_of_lt_of_le h hge, hx.2⟩⟩)
        rw [hcongr]
        exact hfind
    · rw [List.foldl_cons, if_neg h]
      rcases ih b with heq | ⟨hlt, hfind⟩
      · exact Or.inl heq
      · right
        refine ⟨hlt, ?_⟩
        rw [List.find?_cons_of_neg _ (by
          simp only [decide_eq_true_eq]
          rintro ⟨habs, _⟩
          exact h habs)]
        exact hfind

/-- C7: the aggregator accumulates `span_score * selection_score` votes into
a mapping keyed by the lower-cased joined surface string of the span
(identical surfaces share one bucket), keys appear in first-seen insertion
order, and when some bucket has a positive vote the reported best pair is
the first key attaining the maximum accumulated vote. -/
theorem c7_aggregator_votes (cs : List Candidate) :
    (∀ key : String,
        lookupVote (aggregate cs) key
          = if key ∈ validSurfaces cs then some (votesFor cs key) else none) ∧
    (aggregate cs).map (fun kv => kv.1) = firstSeenAux [] (validSurfaces cs) ∧
    (0 < maxVote (aggregate cs) →
      (aggregate cs).find? (fun kv => decide (kv.2 = maxVote (aggregate cs)))
        = some (selectBest (aggregate cs))) := by
  refine ⟨?_, ?_, ?_⟩
  · intro key
    have h := lookupVote_aggregateFrom key cs []
    have h0 : lookupVote ([] : List (String × ℚ)) key = none := rfl
    rw [h0] at h
    exact h
  · simpa using keys_aggregateFrom cs []
  · intro hmax
    have hval : (selectBest (aggregate cs)).2 = maxVote (aggregate cs) :=
      selectBest_val (aggregate cs) ("", 0)
    rcases selectBest_first (aggregate cs) ("", 0) with heq | ⟨hlt, hfind⟩
    · exfalso
      have hsel : selectBest (aggregate cs) = ("", 0) := heq
      rw [hsel] at hval
      exact absurd hmax (by rw [← hval]; exact lt_irrefl 0)
    · have hcongr := find?_congr
        (fun kv : String × ℚ => decide (kv.2 = maxVote (aggregate cs)))
        (fun kv : String × ℚ => decide ((0 : ℚ) < kv.2 ∧
          kv.2 = (selectBest (aggregate cs)).2))
        (aggregate cs)
        (fun x _ => decide_eq_decide.mpr
          ⟨fun hx => ⟨hx ▸ hmax, hx.symm ▸ hval.symm⟩,
           fun hx => hx.2.symm ▸ hval⟩)
      rw [hcongr]
      exact hfind

/-- Witness for C7 at the specification's example: the best bucket is
`"paris"` with accumulated vote `1.1 > 0.5`. -/
theorem c7_aggregator_votes_witness :
    (aggregate exCands).find? (fun kv => decide (kv.2 = maxVote (aggregate exCands)))
      = some (selectBest (aggregate exCands))
    ∧ aggregatePredict exCands = "paris" := by
  have hp1 : predString (⟨0, 0, 4/5, 1, ["paris"]⟩ : Candidate) = "paris" := by decide
  have hp2 : predString (⟨0, 0, 3/10, 1, ["paris"]⟩ : Candidate) = "paris" := by decide
  have hl : predString (⟨0, 0, 1/2, 1, ["lyon"]⟩ : Candidate) = "lyon" := by decide
  have hne : ¬ ("paris" : String) = "lyon" := by decide
  have hagg : aggregate exCands = [("paris", 11/10), ("lyon", 1/2)] := by
    norm_num [aggregate, aggregateFrom, exCands, addVote, outOfRange, vote,
      hp1, hp2, hl, hne, parisDoc, lyonDoc, List.foldl, List.any]
  constructor
  · refine (c7_aggregator_votes exCands).2.2 ?_
    rw [hagg]
    norm_num [maxVote, List.foldl]
  · rw [aggregatePredict, hagg]
    norm_num [selectBest, List.foldl]

/-- C8: a candidate span whose token range reaches past the end of its
document contributes no vote and is skipped, while aggregation continues for
the remaining candidates; in the embedding the skip is the total
`outOfRange` branch that models the caught `IndexError`. -/
theorem c8_out_of_range_skip (pre post : List Candidate) (c : Candidate)
    (h1 : c.predS ≤ c.predE) (h2 : c.doc.length ≤ c.predE) :
    aggregate (pre ++ c :: post) = aggregate (pre ++ post) ∧
    aggregatePredict (pre ++ c :: post) = aggregatePredict (pre ++ post) := by
  have ho : outOfRange c = true := by simp [outOfRange, h1, h2]
  have hagg : aggregate (pre ++ c :: post) = aggregate (pre ++ post) := by
    unfold aggregate aggregateFrom
    rw [List.foldl_append, List.foldl_append, List.foldl_cons]
    simp [ho]
  exact ⟨hagg, by simp [aggregatePredict, hagg]⟩

/-- Witness for C8: the out-of-range candidate `(50, 52)` against a
ten-token document is excluded from aggregation. -/
theorem c8_out_of_range_skip_witness :
    aggregate ([] ++ (⟨50, 52, 1, 1, shortDoc⟩ : Candidate) :: []) = aggregate ([] ++ []) ∧
    aggregatePredict ([] ++ (⟨50, 52, 1, 1, shortDoc⟩ : Candidate) :: [])
      = aggregatePredict ([] ++ []) :=
  c8_out_of_range_skip [] [] ⟨50, 52, 1, 1, shortDoc⟩ (by decide) (by decide)

theorem foldl_best_const :
    ∀ (m : List (String × ℚ)) (b : String × ℚ),
      (∀ kv ∈ m, kv.2 ≤ b.2) →
      m.foldl (fun best kv => if best.2 < kv.2 then kv else best) b = b := by
  intro m
  induction m with
  | nil => intro b _; rfl
  | cons kv rest ih =>
    intro b h
    rw [List.foldl_cons, if_neg (not_lt.mpr (h kv (by simp)))]
    exact ih b (fun kv2 h2 => h kv2 (by simp [h2]))

/-- C10: when every accumulated vote is at most zero (including the case of
an empty score dict), the running best stays at the initial `("", 0)` — a
candidate with vote exactly `0` is never selected and the predicted answer
is the empty string. -/
theorem c10_nonpositive_votes (cs : List Candidate)
    (h : ∀ kv ∈ aggregate cs, kv.2 ≤ 0) :
    selectBest (aggregate cs) = ("", 0) ∧ aggregatePredict cs = "" := by
  have hsel : selectBest (aggregate cs) = ("", 0) :=
    foldl_best_const (aggregate cs) ("", 0) h
  exact ⟨hsel, by simp [aggregatePredict, hsel]⟩

/-- Witness for C10: with a sole bucket holding vote exactly `0`, the
prediction is the empty string, not that bucket's key. -/
theorem c10_nonpositive_votes_witness :
    selectBest (aggregate zeroCands) = ("", 0) ∧ aggregatePredict zeroCands = "" :=
  c10_nonpositive_votes zeroCands (by
    intro kv hkv
    simp [zeroCands, aggregate, aggregateFrom, addVote, outOfRange, vote, parisDoc] at hkv
    simp [hkv])

theorem foldl_pair_append {α β γ : Type} (f : γ → α) (g : γ → β) :
    ∀ (l : List γ) (p : List α) (q : List β),
      l.foldl (fun acc x => (acc.1 ++ [f x], acc.2 ++ [g x])) (p, q)
        = (p ++ l.map f, q ++ l.map g) := by
  intro l
  induction l with
  | nil => intro p q; simp
  | cons x xs ih =>
    intro p q
    rw [List.foldl_cons]
    rw [ih (p ++ [f x]) (q ++ [g x])]
    simp

theorem computeGridLog_inner {α : Type} (matcher : Nat → Nat → α) (d : Nat)
    (batchSize : Nat) (log : List (Nat × Nat)) :
    (List.range batchSize).foldl
        (fun acc2 i =>
          let ri := cellCall matcher acc2.2 d i
          (acc2.1 ++ [ri.1], ri.2)) (([] : List α), log)
      = ((List.range batchSize).map (matcher d),
         log ++ (List.range batchSize).map (fun i => (d, i))) := by
  have h := foldl_pair_append (matcher d) (fun i => (d, i)) (List.range batchSize) [] log
  simpa [cellCall] using h

theorem computeGridLog_eq {α : Type} (numDocs batchSize : Nat)
    (matcher : Nat → Nat → α) :
    computeGridLog numDocs batchSize matcher
      = ((List.range numDocs).map (fun d => (List.range batchSize).map (matcher d)),
         cellEnum numDocs batchSize) := by
  unfold computeGridLog cellEnum
  suffices h : ∀ (ds : List Nat) (g0 : List (List α)) (log0 : List (Nat × Nat)),
      ds.foldl
        (fun acc d =>
          let row := (List.range batchSize).foldl
            (fun acc2 i =>
              let ri := cellCall matcher acc2.2 d i
              (acc2.1 ++ [ri.1], ri.2)) ([], acc.2)
          (acc.1 ++ [row.1], row.2)) (g0, log0)
        = (g0 ++ ds.map (fun d => (List.range batchSize).map (matcher d)),
           log0 ++ ds.flatMap (fun d => (List.range batchSize).map (fun i => (d, i)))) by
    simpa using h (List.range numDocs) [] []
  intro ds
  induction ds with
  | nil => intro g0 log0; simp
  | cons d rest ih =>
    intro g0 log0
    rw [List.foldl_cons]
    have hrow := computeGridLog_inner matcher d batchSize log0
    simp only [hrow]
    rw [ih]
    simp

theorem mem_cellEnum (numDocs batchSize : Nat) (d i : Nat) :
    (d, i) ∈ cellEnum numDocs batchSize ↔ d < numDocs ∧ i < batchSize := by
  unfold cellEnum
  simp [List.mem_flatMap, List.mem_map, List.mem_range]

theorem nodup_cellEnum (numDocs batchSize : Nat) :
    (cellEnum numDocs batchSize).Nodup := by
  unfold cellEnum
  induction numDocs with
  | zero => simp
  | succ n ih =>
    rw [List.range_succ, List.flatMap_append]
    refine List.Nodup.append ih ?_ ?_
    · simp only [List.flatMap_cons, List.flatMap_nil, List.append_nil]
      exact (List.nodup_range batchSize).map (fun a b h => by
        simpa using congrArg Prod.snd h)
    · intro x hx1 hx2
      simp only [List.flatMap_cons, List.flatMap_nil, List.append_nil, List.mem_map,
        List.mem_range] at hx2
      rcases hx2 with ⟨i, _, hx⟩
      rcases List.mem_flatMap.1 hx1 with ⟨d2, hd2, hx1m⟩
      rcases List.mem_map.1 hx1m with ⟨i2, _, hx1e⟩
      rw [← hx1e] at hx
      have : d2 = n := (congrArg Prod.fst hx).symm
      rw [List.mem_range] at hd2
      omega

/-- C9: for a fresh batch index, the first visit computes the grid by one
matcher invocation per `(document, example)` cell and stores it; the second
visit (from the same or a later pass) returns the identical stored grid,
leaves the cache unchanged and invokes the matcher zero times — across both
visits every cell is matched exactly once. -/
theorem c9_cache_idempotent {α : Type} (cache : List (Nat × List (List α)))
    (idx numDocs batchSize : Nat) (matcher : Nat → Nat → α)
    (hfresh : cache.find? (fun kv => decide (kv.1 = idx)) = none) :
    (getOrCompute cache idx numDocs batchSize matcher).1
        = (List.range numDocs).map (fun d => (List.range batchSize).map (matcher d)) ∧
    (getOrCompute cache idx numDocs batchSize matcher).2.2 = cellEnum numDocs batchSize ∧
    (getOrCompute ((getOrCompute cache idx numDocs batchSize matcher).2.1) idx
        numDocs batchSize matcher).1
      = (getOrCompute cache idx numDocs batchSize matcher).1 ∧
    (getOrCompute ((getOrCompute cache idx numDocs batchSize matcher).2.1) idx
        numDocs batchSize matcher).2.1
      = (getOrCompute cache idx numDocs batchSize matcher).2.1 ∧
    (getOrCompute ((getOrCompute cache idx numDocs batchSize matcher).2.1) idx
        numDocs batchSize matcher).2.2 = [] ∧
    (cellEnum numDocs batchSize).Nodup ∧
    (∀ d i : Nat, (d, i) ∈ cellEnum numDocs batchSize ↔ d < numDocs ∧ i < batchSize) := by
  have hgl := computeGridLog_eq numDocs batchSize matcher
  have h1 : getOrCompute cache idx numDocs batchSize matcher
      = ((List.range numDocs).map (fun d => (List.range batchSize).map (matcher d)),
         cache ++ [(idx, (List.range numDocs).map
            (fun d => (List.range batchSize).map (matcher d)))],
         cellEnum numDocs batchSize) := by
    unfold getOrCompute
    rw [hfresh, hgl]
  have hfind2 : (cache ++ [(idx, (List.range numDocs).map
        (fun d => (List.range batchSize).map (matcher d)))]).find?
        (fun kv => decide (kv.1 = idx))
      = some (idx, (List.range numDocs).map
          (fun d => (List.range batchSize).map (matcher d))) := by
    rw [List.find?_append, hfresh]
    simp [List.find?_cons]
  have h2 : getOrCompute ((getOrCompute cache idx numDocs batchSize matcher).2.1) idx
        numDocs batchSize matcher
      = ((List.range numDocs).map (fun d => (List.range batchSize).map (matcher d)),
         cache ++ [(idx, (List.range numDocs).map
            (fun d => (List.range batchSize).map (matcher d)))],
         []) := by
    rw [h1]
    unfold getOrCompute
    rw [hfind2]
  refine ⟨by rw [h1], by rw [h1], ?_, ?_, ?_, nodup_cellEnum numDocs batchSize,
    mem_cellEnum numDocs batchSize⟩
  · rw [h2, h1]
  · rw [h2, h1]
  · rw [h2]

/-- Witness for C9 on an empty cache with a 2×2 batch and a concrete
matcher: the recomputation trace is empty the second time. -/
theorem c9_cache_idempotent_witness :
    (getOrCompute ([] : List (Nat × List (List (Nat × Nat)))) 0 2 2 (fun d i => (d, i))).1
        = (List.range 2).map (fun d => (List.range 2).map (fun i => (d, i))) ∧
    (getOrCompute ([] : List (Nat × List (List (Nat × Nat)))) 0 2 2 (fun d i => (d, i))).2.2
        = cellEnum 2 2 ∧
    (getOrCompute ((getOrCompute ([] : List (Nat × List (List (Nat × Nat)))) 0 2 2
        (fun d i => (d, i))).2.1) 0 2 2 (fun d i => (d, i))).1
      = (getOrCompute ([] : List (Nat × List (List (Nat × Nat)))) 0 2 2 (fun d i => (d, i))).1 ∧
    (getOrCompute ((getOrCompute ([] : List (Nat × List (List (Nat × Nat)))) 0 2 2
        (fun d i => (d, i))).2.1) 0 2 2 (fun d i => (d, i))).2.1
      = (getOrCompute ([] : List (Nat × List (List (Nat × Nat)))) 0 2 2
          (fun d i => (d, i))).2.1 ∧
    (getOrCompute ((getOrCompute ([] : List (Nat × List (List (Nat × Nat)))) 0 2 2
        (fun d i => (d, i))).2.1) 0 2 2 (fun d i => (d, i))).2.2 = [] ∧
    (cellEnum 2 2).Nodup ∧
    (∀ d i : Nat, (d, i) ∈ cellEnum 2 2 ↔ d < 2 ∧ i < 2) :=
  c9_cache_idempotent [] 0 2 2 (fun d i => (d, i)) rfl

theorem accumBatch_ok (idx : Nat) :
    ∀ (b : List (ℚ × ℚ × Int)) (i : Nat) (st : AccState),
      (∀ k ∈ st.1.map (fun kv => kv.1), k.1 < idx ∨ (k.1 = idx ∧ k.2 < i)) →
      (∀ k ∈ st.2.map (fun kv => kv.1), k.1 < idx ∨ (k.1 = idx ∧ k.2 < i)) →
      ∃ st2, accumBatch idx i b st = Except.ok st2 ∧
        st2.1.map (fun kv => kv.1)
          = st.1.map (fun kv => kv.1) ++ (List.range' i b.length).map (fun j => (idx, j)) ∧
        st2.2.map (fun kv => kv.1)
          = st.2.map (fun kv => kv.1) ++ (List.range' i b.length).map (fun j => (idx, j)) := by
  intro b
  induction b with
  | nil =>
    intro i st _ _
    exact ⟨st, rfl, by simp [List.range'], by simp [List.range']⟩
  | cons out rest ih =>
    intro i st h1 h2
    have hfresh1 : st.1.any (fun kv => decide (kv.1 = (idx, i))) = false := by
      rw [List.any_eq_false]
      intro kv hkv
      have := h1 kv.1 (List.mem_map.2 ⟨kv, hkv, rfl⟩)
      simp only [decide_eq_true_eq]
      intro hk
      rw [hk] at this
      omega
    have hfresh2 : st.2.any (fun kv => decide (kv.1 = (idx, i))) = false := by
      rw [List.any_eq_false]
      intro kv hkv
      have := h2 kv.1 (List.mem_map.2 ⟨kv, hkv, rfl⟩)
      simp only [decide_eq_true_eq]
      intro hk
      rw [hk] at this
      omega
    have hins : accumInsert st (idx, i) out.1 (out.2.1, out.2.2)
        = Except.ok (st.1 ++ [((idx, i), out.1)], st.2 ++ [((idx, i), (out.2.1, out.2.2))]) := by
      unfold accumInsert
      rw [if_neg (by simp [hfresh1, hfresh2])]
    have hnext1 : ∀ k ∈ (st.1 ++ [((idx, i), out.1)]).map (fun kv => kv.1),
        k.1 < idx ∨ (k.1 = idx ∧ k.2 < i + 1) := by
      intro k hk
      rw [List.map_append, List.mem_append] at hk
      rcases hk with hk | hk
      · rcases h1 k hk with h | h
        · exact Or.inl h
        · exact Or.inr ⟨h.1, by omega⟩
      · simp at hk
        rw [hk]
        exact Or.inr ⟨rfl, by omega⟩
    have hnext2 : ∀ k ∈ (st.2 ++ [((idx, i), (out.2.1, out.2.2))]).map (fun kv => kv.1),
        k.1 < idx ∨ (k.1 = idx ∧ k.2 < i + 1) := by
      intro k hk
      rw [List.map_append, List.mem_append] at hk
      rcases hk with hk | hk
      · rcases h2 k hk with h | h
        · exact Or.inl h
        · exact Or.inr ⟨h.1, by omega⟩
      · simp at hk
        rw [hk]
        exact Or.inr ⟨rfl, by omega⟩
    rcases ih (i + 1) (st.1 ++ [((idx, i), out.1)], st.2 ++ [((idx, i), (out.2.1, out.2.2))])
      hnext1 hnext2 with ⟨st2, hrun, hkeys1, hkeys2⟩
    refine ⟨st2, ?_, ?_, ?_⟩
    · rw [accumBatch, hins]
      exact hrun
    · rw [hkeys1, List.length_cons, List.range'_succ, List.map_cons]
      simp
    · rw [hkeys2, List.length_cons, List.range'_succ, List.map_cons]
      simp

theorem passKeys_mono :
    ∀ (bs : List (List (ℚ × ℚ × Int))) (idx : Nat) (k : Nat × Nat),
      k ∈ passKeys idx bs → idx ≤ k.1 := by
  intro bs
  induction bs with
  | nil => intro idx k hk; simp [passKeys] at hk
  | cons b rest ih =>
    intro idx k hk
    rw [passKeys, List.mem_append] at hk
    rcases hk with hk | hk
    · rcases List.mem_map.1 hk with ⟨i, _, hik⟩
      rw [← hik]
    · exact le_trans (by omega) (ih (idx + 1) k hk)

theorem passKeys_nodup :
    ∀ (bs : List (List (ℚ × ℚ × Int))) (idx : Nat), (passKeys idx bs).Nodup := by
  intro bs
  induction bs with
  | nil => intro idx; simp [passKeys]
  | cons b rest ih =>
    intro idx
    rw [passKeys]
    refine List.Nodup.append ?_ (ih (idx + 1)) ?_
    · exact (List.nodup_range b.length).map (fun a b h => by
        simpa using congrArg Prod.snd h)
    · intro k hk1 hk2
      have h2 := passKeys_mono rest (idx + 1) k hk2
      rcases List.mem_map.1 hk1 with ⟨i, _, hik⟩
      rw [← hik] at h2
      simp at h2

theorem accumPass_ok :
    ∀ (bs : List (List (ℚ × ℚ × Int))) (idx : Nat) (st : AccState),
      (∀ k ∈ st.1.map (fun kv => kv.1), k.1 < idx) →
      (∀ k ∈ st.2.map (fun kv => kv.1), k.1 < idx) →
      ∃ st2, accumPass idx bs st = Except.ok st2 ∧
        st2.1.map (fun kv => kv.1) = st.1.map (fun kv => kv.1) ++ passKeys idx bs ∧
        st2.2.map (fun kv => kv.1) = st.2.map (fun kv => kv.1) ++ passKeys idx bs := by
  intro bs
  induction bs with
  | nil =>
    intro idx st _ _
    exact ⟨st, rfl, by simp [passKeys], by simp [passKeys]⟩
  | cons b rest ih =>
    intro idx st h1 h2
    rcases accumBatch_ok idx b 0 st (fun k hk => Or.inl (h1 k hk))
        (fun k hk => Or.inl (h2 k hk)) with ⟨st2, hrun, hkeys1, hkeys2⟩
    have hrange : List.range' 0 b.length = List.range b.length :=
      (List.range_eq_range' b.length).symm
    rw [hrange] at hkeys1 hkeys2
    have hnext1 : ∀ k ∈ st2.1.map (fun kv => kv.1), k.1 < idx + 1 := by
      intro k hk
      rw [hkeys1, List.mem_append] at hk
      rcases hk with hk | hk
      · exact lt_trans (h1 k hk) (by omega)
      · rcases List.mem_map.1 hk with ⟨i, _, hik⟩
        rw [← hik]
        omega
    have hnext2 : ∀ k ∈ st2.2.map (fun kv => kv.1), k.1 < idx + 1 := by
      intro k hk
      rw [hkeys2, List.mem_append] at hk
      rcases hk with hk | hk
      · exact lt_trans (h2 k hk) (by omega)
      · rcases List.mem_map.1 hk with ⟨i, _, hik⟩
        rw [← hik]
        omega
    rcases ih (idx + 1) st2 hnext1 hnext2 with ⟨st3, hrun3, hkeys31, hkeys32⟩
    refine ⟨st3, ?_, ?_, ?_⟩
    · rw [accumPass, hrun]
      exact hrun3
    · rw [hkeys31, hkeys1, passKeys, List.append_assoc]
    · rw [hkeys32, hkeys2, passKeys, List.append_assoc]

/-- C4: a second accumulator write to an existing `(batch, in-batch)` key
fails fast with the `ValueError` of the source instead of overwriting; and
the accumulate phase of a pass, whose keys pair the loader's enumeration
index with the in-batch position, writes every key exactly once and
completes without error. -/
theorem c4_duplicate_key :
    (∀ (st : AccState) (key : Nat × Nat) (p : ℚ) (att : ℚ × Int),
      ((∃ v, (key, v) ∈ st.1) ∨ (∃ w, (key, w) ∈ st.2)) →
      accumInsert st key p att
        = Except.error (toString key.1 ++ "|" ++ toString key.2
            ++ " exists in Probability or Attention_Weight")) ∧
    (∀ batches : List (List (ℚ × ℚ × Int)),
      ∃ st2, accumPass 0 batches ([], []) = Except.ok st2 ∧
        st2.1.map (fun kv => kv.1) = passKeys 0 batches ∧
        st2.2.map (fun kv => kv.1) = passKeys 0 batches ∧
        (passKeys 0 batches).Nodup) := by
  constructor
  · intro st key p att hdup
    have hcond : (st.1.any (fun kv => decide (kv.1 = key))
        || st.2.any (fun kv => decide (kv.1 = key))) = true := by
      rcases hdup with ⟨v, hv⟩ | ⟨w, hw⟩
      · have h1 : st.1.any (fun kv => decide (kv.1 = key)) = true :=
          List.any_eq_true.2 ⟨(key, v), hv, by simp⟩
        rw [h1, Bool.true_or]
      · have h2 : st.2.any (fun kv => decide (kv.1 = key)) = true :=
          List.any_eq_true.2 ⟨(key, w), hw, by simp⟩
        rw [h2, Bool.or_true]
    unfold accumInsert
    rw [if_pos hcond]
  · intro batches
    rcases accumPass_ok batches 0 ([], []) (by simp) (by simp)
      with ⟨st2, hrun, hk1, hk2⟩
    refine ⟨st2, hrun, hk1, hk2, passKeys_nodup batches 0⟩

/-- Witness for C4: re-writing the already present key `(3, 4)` raises the
duplicate-key error. -/
theorem c4_duplicate_key_witness :
    accumInsert ([(((3 : Nat), (4 : Nat)), (1 : ℚ))], []) (3, 4) 2 (5, 0)
      = Except.error "3|4 exists in Probability or Attention_Weight" := by
  have h := c4_duplicate_key.1 ([(((3 : Nat), (4 : Nat)), (1 : ℚ))], []) (3, 4) 2 (5, 0)
    (Or.inl ⟨1, by simp⟩)
  simpa using h

theorem insertDesc_perm (r : ConfRecord) :
    ∀ l : List ConfRecord, (insertDesc r l).Perm (r :: l) := by
  intro l
  induction l with
  | nil => simp [insertDesc]
  | cons x xs ih =>
    rw [insertDesc]
    by_cases h : r.score < x.score
    · rw [if_pos h]
      exact List.Perm.trans (List.Perm.cons x ih) (List.Perm.swap r x xs)
    · rw [if_neg h]

theorem sortRecords_perm (l : List ConfRecord) : (sortRecords l).Perm l := by
  induction l with
  | nil => simp [sortRecords]
  | cons x xs ih =>
    have : sortRecords (x :: xs) = insertDesc x (sortRecords xs) := rfl
    rw [this]
    exact List.Perm.trans (insertDesc_perm x (sortRecords xs)) (List.Perm.cons x ih)

theorem insertDesc_sorted (r : ConfRecord) :
    ∀ l : List ConfRecord, l.Pairwise (fun a b => b.score ≤ a.score) →
      (insertDesc r l).Pairwise (fun a b => b.score ≤ a.score) := by
  intro l
  induction l with
  | nil => intro _; simp [insertDesc]
  | cons x xs ih =>
    intro hs
    rcases List.pairwise_cons.1 hs with ⟨hx, hxs⟩
    rw [insertDesc]
    by_cases h : r.score < x.score
    · rw [if_pos h]
      refine List.pairwise_cons.2 ⟨?_, ih hxs⟩
      intro y hy
      rcases List.mem_cons.1 ((insertDesc_perm r xs).mem_iff.1 hy) with hy2 | hy2
      · rw [hy2]; exact le_of_lt h
      · exact hx y hy2
    · rw [if_neg h]
      refine List.pairwise_cons.2 ⟨?_, hs⟩
      intro y hy
      rcases List.mem_cons.1 hy with hy2 | hy2
      · rw [hy2]; exact le_of_not_lt h
      · exact le_trans (hx y hy2) (le_of_not_lt h)

theorem sortRecords_sorted (l : List ConfRecord) :
    (sortRecords l).Pairwise (fun a b => b.score ≤ a.score) := by
  induction l with
  | nil => simp [sortRecords]
  | cons x xs ih =>
    exact insertDesc_sorted x (sortRecords xs) ih

theorem filter_insertDesc (q : ℚ) (r : ConfRecord) :
    ∀ l : List ConfRecord, l.Pairwise (fun a b => b.score ≤ a.score) →
      (insertDesc r l).filter (fun x => decide (x.score = q))
        = if r.score = q then r :: l.filter (fun x => decide (x.score = q))
          else l.filter (fun x => decide (x.score = q)) := by
  intro l
  induction l with
  | nil =>
    intro _
    by_cases h : r.score = q
    · simp [insertDesc, List.filter_cons, h]
    · simp [insertDesc, List.filter_cons, h]
  | cons x xs ih =>
    intro hs
    rcases List.pairwise_cons.1 hs with ⟨hx, hxs⟩
    rw [insertDesc]
    by_cases h : r.score < x.score
    · rw [if_pos h]
      by_cases hxq : x.score = q
      · have hrq : ¬ r.score = q := by
          intro hrq
          rw [hrq] at h
          rw [hxq] at h
          exact lt_irrefl q h
        rw [if_neg hrq, List.filter_cons, if_pos (decide_eq_true hxq), ih hxs, if_neg hrq,
            List.filter_cons, if_pos (decide_eq_true hxq)]
      · rw [List.filter_cons, if_neg (fun hc => hxq (of_decide_eq_true hc)), ih hxs]
        by_cases hrq : r.score = q
        · rw [if_pos hrq, if_pos hrq, List.filter_cons,
              if_neg (fun hc => hxq (of_decide_eq_true hc))]
        · rw [if_neg hrq, if_neg hrq, List.filter_cons,
              if_neg (fun hc => hxq (of_decide_eq_true hc))]
    · rw [if_neg h]
      by_cases hrq : r.score = q
      · rw [List.filter_cons, if_pos (decide_eq_true hrq), if_pos hrq]
      · rw [List.filter_cons, if_neg (fun hc => hrq (of_decide_eq_true hc)), if_neg hrq]

theorem sortRecords_stable (q : ℚ) :
    ∀ l : List ConfRecord,
      (sortRecords l).filter (fun x => decide (x.score = q))
        = l.filter (fun x => decide (x.score = q)) := by
  intro l
  induction l with
  | nil => rfl
  | cons x xs ih =>
    have hstep : sortRecords (x :: xs) = insertDesc x (sortRecords xs) := rfl
    rw [hstep, filter_insertDesc q x (sortRecords xs) (sortRecords_sorted xs), ih]
    by_cases hxq : x.score = q
    · rw [if_pos hxq, List.filter_cons, if_pos (decide_eq_true hxq)]
    · rw [if_neg hxq, List.filter_cons, if_neg (fun hc => hxq (of_decide_eq_true hc))]

theorem promoteLoop_keeps (K : Nat) :
    ∀ (l : List ConfRecord) (lab : Labels) (count : Nat) (k : Nat × Nat),
      lab k ≠ -1 → (promoteLoop K l lab count).1 k = lab k := by
  intro l
  induction l with
  | nil => intro lab count k _; rfl
  | cons r rs ih =>
    intro lab count k hk
    rw [promoteLoop]
    by_cases hr : lab (rkey r) ≠ -1
    · rw [if_pos hr]
      exact ih lab count k hk
    · rw [if_neg hr]
      push_neg at hr
      have hkr : ¬ k = rkey r := fun he => hk (by rw [he]; exact hr)
      by_cases hbreak : K ≤ count + 1
      · rw [if_pos hbreak]
        show setLabel lab (rkey r) r.docIdx k = lab k
        simp [setLabel, hkr]
      · rw [if_neg hbreak]
        show (promoteLoop K rs (setLabel lab (rkey r) r.docIdx) (count + 1)).1 k = lab k
        have h2 : setLabel lab (rkey r) r.docIdx k ≠ -1 := by
          simpa [setLabel, hkr] using hk
        rw [ih _ _ k h2]
        simp [setLabel, hkr]

theorem promoteLoop_promoted_unlabeled (K : Nat) :
    ∀ (l : List ConfRecord) (lab : Labels) (count : Nat) (k : Nat × Nat),
      k ∈ (promoteLoop K l lab count).2.2 → lab k = -1 := by
  intro l
  induction l with
  | nil =>
    intro lab count k hk
    simp [promoteLoop] at hk
  | cons r rs ih =>
    intro lab count k hk
    rw [promoteLoop] at hk
    by_cases hr : lab (rkey r) ≠ -1
    · rw [if_pos hr] at hk
      exact ih lab count k hk
    · rw [if_neg hr] at hk
      push_neg at hr
      by_cases hbreak : K ≤ count + 1
      · rw [if_pos hbreak] at hk
        have : k = rkey r := by simpa using hk
        rw [this]
        exact hr
      · rw [if_neg hbreak] at hk
        rcases List.mem_cons.1 hk with hk2 | hk2
        · rw [hk2]; exact hr
        · have h2 := ih (setLabel lab (rkey r) r.docIdx) (count + 1) k hk2
          by_cases hkr : k = rkey r
          · rw [hkr]; exact hr
          · rw [setLabel, if_neg hkr] at h2
            exact h2

theorem promoteLoop_run (K : Nat) :
    ∀ (l : List ConfRecord) (lab : Labels) (count : Nat),
      count < K → (l.map rkey).Nodup →
      (promoteLoop K l lab count).2.1
          = count + min (K - count)
              ((l.filter (fun r => decide (lab (rkey r) = -1))).length) ∧
      (promoteLoop K l lab count).2.2
          = ((l.filter (fun r => decide (lab (rkey r) = -1))).take (K - count)).map rkey := by
  intro l
  induction l with
  | nil =>
    intro lab count _ _
    exact ⟨by simp [promoteLoop], by simp [promoteLoop]⟩
  | cons r rs ih =>
    intro lab count hcount hnodup
    rw [List.map_cons, List.nodup_cons] at hnodup
    rcases hnodup with ⟨hnotin, hnodup2⟩
    rw [promoteLoop]
    by_cases hr : lab (rkey r) ≠ -1
    · rw [if_pos hr]
      have hfilter : (r :: rs).filter (fun r2 => decide (lab (rkey r2) = -1))
          = rs.filter (fun r2 => decide (lab (rkey r2) = -1)) := by
        rw [List.filter_cons, if_neg (fun hc => hr (of_decide_eq_true hc))]
      rw [hfilter] at *
      exact ih lab count hcount hnodup2
    · rw [if_neg hr]
      push_neg at hr
      have hfilter : (r :: rs).filter (fun r2 => decide (lab (rkey r2) = -1))
          = r :: rs.filter (fun r2 => decide (lab (rkey r2) = -1)) := by
        rw [List.filter_cons, if_pos (decide_eq_true hr)]
      rw [hfilter]
      by_cases hbreak : K ≤ count + 1
      · rw [if_pos hbreak]
        have hKc : K - count = 1 := by omega
        constructor
        · show count + 1 = count + min (K - count)
            (r :: rs.filter (fun r2 => decide (lab (rkey r2) = -1))).length
          rw [hKc, List.length_cons]
          have : min 1 ((rs.filter (fun r2 => decide (lab (rkey r2) = -1))).length + 1) = 1 :=
            min_eq_left (by omega)
          rw [this]
        · show [rkey r] = ((r :: rs.filter (fun r2 => decide (lab (rkey r2) = -1))).take
            (K - count)).map rkey
          rw [hKc]
          rfl
      · rw [if_neg hbreak]
        have hcount2 : count + 1 < K := by omega
        have hcong : rs.filter (fun r2 =>
              decide (setLabel lab (rkey r) r.docIdx (rkey r2) = -1))
            = rs.filter (fun r2 => decide (lab (rkey r2) = -1)) := by
          refine List.filter_congr ?_
          intro x hx
          have hne : ¬ rkey x = rkey r := by
            intro he
            exact hnotin (he ▸ List.mem_map.2 ⟨x, hx, rfl⟩)
          rw [setLabel, if_neg hne]
        rcases ih (setLabel lab (rkey r) r.docIdx) (count + 1) hcount2 hnodup2
          with ⟨ihc, ihp⟩
        rw [hcong] at ihc ihp
        have hKc : K - count = (K - count - 1) + 1 := by omega
        constructor
        · show (promoteLoop K rs (setLabel lab (rkey r) r.docIdx) (count + 1)).2.1
            = count + min (K - count)
                (r :: rs.filter (fun r2 => decide (lab (rkey r2) = -1))).length
          rw [ihc, List.length_cons, hKc]
          rw [Nat.succ_min_succ]
          omega
        · show rkey r :: (promoteLoop K rs (setLabel lab (rkey r) r.docIdx) (count + 1)).2.2
            = ((r :: rs.filter (fun r2 => decide (lab (rkey r2) = -1))).take (K - count)).map rkey
          rw [ihp, hKc, List.take_succ_cons, List.map_cons]
          have : K - count - 1 = K - (count + 1) := by omega
          rw [this]

theorem promoteLoop_zero :
    ∀ (l : List ConfRecord) (lab : Labels) (count : Nat),
      (promoteLoop 0 l lab count).2.1
          = count + min 1 ((l.filter (fun r => decide (lab (rkey r) = -1))).length) ∧
      (promoteLoop 0 l lab count).2.2
          = ((l.filter (fun r => decide (lab (rkey r) = -1))).take 1).map rkey := by
  intro l
  induction l with
  | nil =>
    intro lab count
    exact ⟨by simp [promoteLoop], by simp [promoteLoop]⟩
  | cons r rs ih =>
    intro lab count
    rw [promoteLoop]
    by_cases hr : lab (rkey r) ≠ -1
    · rw [if_pos hr]
      have hfilter : (r :: rs).filter (fun r2 => decide (lab (rkey r2) = -1))
          = rs.filter (fun r2 => decide (lab (rkey r2) = -1)) := by
        rw [List.filter_cons, if_neg (fun hc => hr (of_decide_eq_true hc))]
      rw [hfilter]
      exact ih lab count
    · rw [if_neg hr]
      push_neg at hr
      have hfilter : (r :: rs).filter (fun r2 => decide (lab (rkey r2) = -1))
          = r :: rs.filter (fun r2 => decide (lab (rkey r2) = -1)) := by
        rw [List.filter_cons, if_pos (decide_eq_true hr)]
      rw [hfilter, if_pos (by omega)]
      constructor
      · show count + 1 = count + min 1
          (r :: rs.filter (fun r2 => decide (lab (rkey r2) = -1))).length
        rw [List.length_cons]
        have : min 1 ((rs.filter (fun r2 => decide (lab (rkey r2) = -1))).length + 1) = 1 :=
          min_eq_left (by omega)
        rw [this]
      · rfl

theorem sortRecords_keys_nodup (recs : List ConfRecord)
    (h : (recs.map rkey).Nodup) :
    ((sortRecords (eligibleRecords recs)).map rkey).Nodup := by
  have hsub : ((eligibleRecords recs).map rkey).Sublist (recs.map rkey) :=
    (List.filter_sublist recs).map rkey
  have h1 : ((eligibleRecords recs).map rkey).Nodup := h.sublist hsub
  exact (((sortRecords_perm (eligibleRecords recs)).map rkey).nodup_iff).2 h1

theorem sortRecords_unlabeled_length (recs : List ConfRecord) (lab : Labels) :
    ((sortRecords (eligibleRecords recs)).filter
        (fun r => decide (lab (rkey r) = -1))).length
      = eligibleUnlabeledCount recs lab :=
  ((sortRecords_perm (eligibleRecords recs)).filter
    (fun r => decide (lab (rkey r) = -1))).length_eq

/-- C1 (amended): in an update-evidence pass the promotion count equals
`min(max(K,1), count of eligible records)` where eligible means
`best_doc_index != -1` and still unlabeled: the source checks
`count >= Top_k` only after incrementing, so budgets `K >= 1` behave as
`min(K, eligible)` and never exceed `K`, while `K = 0` still promotes one
eligible record. -/
theorem c1_budget_amended (K : Nat) (recs : List ConfRecord) (lab : Labels)
    (hnodup : (recs.map rkey).Nodup) :
    (updatePromote K recs lab).2.1 = min (max K 1) (eligibleUnlabeledCount recs lab) := by
  have hsortnodup := sortRecords_keys_nodup recs hnodup
  have hlen := sortRecords_unlabeled_length recs lab
  rcases Nat.eq_zero_or_pos K with hK | hK
  · subst hK
    have h := (promoteLoop_zero (sortRecords (eligibleRecords recs)) lab 0).1
    unfold updatePromote
    rw [h, hlen]
    simp
  · have h := (promoteLoop_run K (sortRecords (eligibleRecords recs)) lab 0 hK hsortnodup).1
    unfold updatePromote
    rw [h, hlen]
    have hmax : max K 1 = K := by omega
    rw [hmax, Nat.sub_zero, Nat.zero_add]

/-- Counterexample to C1 as stated: with budget `K = 0` and one eligible
unlabeled record, the pass performs one promotion, which exceeds
`min(K, eligible) = 0`, because the source checks `count >= Top_k` only
after the increment. -/
theorem c1_budget_counterexample :
    (updatePromote 0 [soloRecord] allUnlabeled).2.1 = 1 ∧
    min 0 (eligibleUnlabeledCount [soloRecord] allUnlabeled) = 0 ∧
    ¬ (updatePromote 0 [soloRecord] allUnlabeled).2.1
        = min 0 (eligibleUnlabeledCount [soloRecord] allUnlabeled) := by
  refine ⟨by decide, by decide, by decide⟩

/-- C2: the promoter is globally ranked and greedy — the processed list is a
permutation of the eligible records sorted by score descending with ties in
original visitation order, and the promoted keys are the first `K`
still-unlabeled records of that sorted order, i.e. the `K` highest-scoring
eligible unlabeled examples. -/
theorem c2_global_ranking (K : Nat) (recs : List ConfRecord) (lab : Labels)
    (hK : 1 ≤ K) (hnodup : (recs.map rkey).Nodup) :
    (sortRecords (eligibleRecords recs)).Perm (eligibleRecords recs) ∧
    (sortRecords (eligibleRecords recs)).Pairwise (fun a b => b.score ≤ a.score) ∧
    (∀ q : ℚ, (sortRecords (eligibleRecords recs)).filter (fun r => decide (r.score = q))
        = (eligibleRecords recs).filter (fun r => decide (r.score = q))) ∧
    (updatePromote K recs lab).2.2
      = (((sortRecords (eligibleRecords recs)).filter
            (fun r => decide (lab (rkey r) = -1))).take K).map rkey := by
  refine ⟨sortRecords_perm _, sortRecords_sorted _, fun q => sortRecords_stable q _, ?_⟩
  have hsortnodup := sortRecords_keys_nodup recs hnodup
  have h := (promoteLoop_run K (sortRecords (eligibleRecords recs)) lab 0
    (by omega) hsortnodup).2
  unfold updatePromote
  rw [h, Nat.sub_zero]

/-- Witness for the amended C1: three eligible unlabeled records and budget
`K = 2` promote exactly `min(max(2,1), 3) = 2` examples. -/
theorem c1_budget_amended_witness :
    ((exRecsPre.map rkey).Nodup) ∧
    (updatePromote 2 exRecsPre allUnlabeled).2.1
      = min (max 2 1) (eligibleUnlabeledCount exRecsPre allUnlabeled) :=
  ⟨by decide, c1_budget_amended 2 exRecsPre allUnlabeled (by decide)⟩

/-- Witness for C2 at the specification's example with `K = 2`: exactly the
questions with scores `0.9` and `0.7` are promoted, in that order; the `0.5`
question is not. -/
theorem c2_global_ranking_witness :
    (updatePromote 2 exRecsPre allUnlabeled).2.2 = [(0, 0), (0, 2)] := by
  have h := (c2_global_ranking 2 exRecsPre allUnlabeled (by omega) (by decide)).2.2.2
  rw [h]
  have hsort : sortRecords (eligibleRecords exRecsPre)
      = [⟨0, 0, 1, 9/10, 2⟩, ⟨0, 2, 1, 7/10, 2⟩, ⟨0, 1, 1, 1/2, 2⟩] := by
    norm_num [sortRecords, eligibleRecords, exRecsPre, insertDesc, List.foldr, List.filter]
  rw [hsort]
  norm_num [allUnlabeled, rkey, List.filter, List.take, List.map]

/-- C3: evidence labels are promotion-monotonic — a label already different
from `-1` is never changed by the pass, promoted keys all come from
initially-unlabeled examples (labeled examples are skipped), and the
spec-modelled store-level `promote` fails with `AlreadyLabeled` on a labeled
question. -/
theorem c3_promotion_monotonic (K : Nat) (recs : List ConfRecord) (lab : Labels) :
    (∀ k : Nat × Nat, lab k ≠ -1 → (updatePromote K recs lab).1 k = lab k) ∧
    (∀ k ∈ (updatePromote K recs lab).2.2, lab k = -1) ∧
    (∀ (store : Labels) (q : Nat × Nat) (d : Int), store q ≠ -1 →
      promoteStore store q d = Except.error PromoteError.AlreadyLabeled) := by
  refine ⟨?_, ?_, ?_⟩
  · intro k hk
    exact promoteLoop_keeps K (sortRecords (eligibleRecords recs)) lab 0 k hk
  · intro k hk
    exact promoteLoop_promoted_unlabeled K (sortRecords (eligibleRecords recs)) lab 0 k hk
  · intro store q d hq
    unfold promoteStore
    rw [if_pos hq]

/-- Witness for C3: the pass leaves the already-promoted label of `(0, 0)`
untouched, and the store-level `promote` on it fails with `AlreadyLabeled`. -/
theorem c3_promotion_monotonic_witness :
    (updatePromote 1 [soloRecord] oneLabeled).1 (0, 0) = oneLabeled (0, 0) ∧
    promoteStore oneLabeled (0, 0) 3 = Except.error PromoteError.AlreadyLabeled :=
  ⟨(c3_promotion_monotonic 1 [soloRecord] oneLabeled).1 (0, 0) (by decide),
   (c3_promotion_monotonic 1 [soloRecord] oneLabeled).2.2 oneLabeled (0, 0) 3 (by decide)⟩

end OpenQA
